import Mathlib

/-!
Verification of the Splunk field-discovery helper (src/main.py).

The embedding models:
* the XML result decoding loop of `SplunkService.search` (lines 87-96),
* the job lifecycle of `SplunkService.search` (lines 62-113), counting
  `job.cancel()` calls,
* the query construction and set-collection of
  `SplunkService.get_fields_for_sourcetype` (lines 124-140),
* the pair extraction and task dispatch of `process_batch` (lines 143-159),
* the per-item worker with its result-sink write, `process_item`
  (lines 161-185), and
* the batching loop of `main` (lines 201-207).
-/

namespace Splunk

/-- An XML element as `xml.etree.ElementTree` presents it: a tag, an
attribute list (attribute names are unique in XML), the element's text,
and the child elements in document order. -/
inductive Element : Type where
  | mk (tag : String) (attrs : List (String × String)) (text : Option String)
       (children : List Element)

def Element.tag : Element → String
  | .mk t _ _ _ => t

def Element.attrs : Element → List (String × String)
  | .mk _ a _ _ => a

def Element.text : Element → Option String
  | .mk _ _ tx _ => tx

def Element.children : Element → List Element
  | .mk _ _ _ ch => ch

/-- Preorder traversal of all elements of a forest: each root followed by
its descendants.  `descList es` lists every element that occurs in `es`,
in document order. -/
def descList : List Element → List Element
  | [] => []
  | Element.mk t a tx ch :: cs =>
      Element.mk t a tx ch :: (descList ch ++ descList cs)

/-- The proper descendants of an element, in document order.  This is what
`root.findall(".//tag")` iterates over: ElementTree's `.//` path matches
subelements on all levels beneath the element, never the element itself. -/
def Element.descendants (e : Element) : List Element :=
  descList e.children

/-- The element itself and all of its descendants: every node of the
document rooted at `e`. -/
def allNodes (e : Element) : List Element :=
  e :: e.descendants

/-- `root.findall(".//result")` of line 89: the result-tagged proper
descendants of the root, in document order. -/
def resultNodes (root : Element) : List Element :=
  root.descendants.filter (fun e => e.tag == "result")

/-- `result.findall("field")` of line 91: the field-tagged direct children. -/
def fieldChildren (res : Element) : List Element :=
  res.children.filter (fun c => c.tag == "field")

/-- `field.get("k")` of line 92: attribute lookup, `none` when absent. -/
def Element.attr (e : Element) (k : String) : Option String :=
  (e.attrs.find? (fun p => p.1 == k)).map (fun p => p.2)

/-- `field.find("value/text")` of lines 93-94: the first element matching
the path, i.e. the first text-tagged child of a value-tagged child, in
document order. -/
def Element.findValueText (e : Element) : Option Element :=
  ((e.children.filter (fun c => c.tag == "value")).flatMap
    (fun v => v.children.filter (fun c => c.tag == "text"))).head?

/-- The value stored for one field node (lines 93-94): the text of the
`value/text` element when that element exists, else `None`. -/
def fieldValue (f : Element) : Option String :=
  match f.findValueText with
  | some el => el.text
  | none => none

/-- A decoded record, as the `result_dict` of lines 90-95: a Python dict
from field name to field value.  Field names can be `None` (a field node
without the `k` attribute), so keys are `Option String`.  The dict is
modelled as an association list whose keys stay unique: assignment
replaces the value of an existing key in place and appends a fresh key at
the end, exactly the Python dict semantics. -/
abbrev Record := List (Option String × Option String)

/-- `result_dict[field_name] = field_value` of line 95: replace in place
when the key is present, else append. -/
def Record.insert : Record → Option String → Option String → Record
  | [], k, v => [(k, v)]
  | p :: ps, k, v => if p.1 == k then (k, v) :: ps else p :: Record.insert ps k v

/-- Dict lookup: the value stored under a key, `none` when the key is
absent (a `KeyError` in Python). -/
def Record.find : Record → Option String → Option (Option String)
  | [], _ => none
  | p :: ps, k => if p.1 == k then some p.2 else Record.find ps k

/-- The keys of a record, in insertion order. -/
def Record.keys (r : Record) : List (Option String) :=
  r.map (fun p => p.1)

/-- Lines 90-95: one record per result node, built by inserting each field
child's name and value in document order. -/
def decodeResult (res : Element) : Record :=
  (fieldChildren res).foldl (fun r f => r.insert (f.attr "k") (fieldValue f)) []

/-- Lines 88-96: the decoded result list of a well-formed document — one
record per result node found by `root.findall(".//result")`, in document
order. -/
def decodeTree (root : Element) : List Record :=
  (resultNodes root).map decodeResult

/-- A raw response body together with the outcome of `ET.fromstring` on it
(line 87).  The XML parser itself is the standard library's; it is
modelled as a boundary: `parsed = none` means it raised `ParseError`. -/
structure RawDoc : Type where
  raw : String
  parsed : Option Element

/-- The diagnostic payload of a decode failure: the raw content the error
handler of lines 105-108 reports alongside the re-raised `ParseError`. -/
structure DecodeError : Type where
  diag : String
deriving DecidableEq

/-- Lines 87-96 and 105-108 as a total function: parse, then walk the
whole tree; on a parse failure, fail carrying the raw content.  There is
no partial success — records are only produced after the full document
parsed. -/
def decode (d : RawDoc) : Except DecodeError (List Record) :=
  match d.parsed with
  | none => .error (DecodeError.mk d.raw)
  | some root => .ok (decodeTree root)

/-- What one call of `SplunkService.search` surfaces to its caller:
a wrapped remote fault (lines 109-113), a re-raised parse error
(lines 105-108), or the decoded result list (line 103). -/
inductive SearchOutcome : Type where
  | searchError (msg : String)
  | decodeError (diag : String)
  | ok (rs : List Record)
deriving DecidableEq

/-- One execution of `SplunkService.search` after the job was submitted
and polled to completion: the fetch of the raw results (lines 80-83, which
may fail remotely) and, when it succeeded, the parse outcome. -/
structure SearchRun : Type where
  fetched : Except String RawDoc

/-- Lines 62-113 of `SplunkService.search`, from the point where the job
identifier exists, paired with the number of `job.cancel()` calls made.
The only `job.cancel()` is at line 101, after decoding succeeded; both
`except` handlers re-raise without cancelling. -/
def search (run : SearchRun) : SearchOutcome × Nat :=
  match run.fetched with
  | .error msg => (.searchError msg, 0)
  | .ok d =>
    match decode d with
    | .error e => (.decodeError e.diag, 0)
    | .ok rs => (.ok rs, 1)

/-- Line 132: the query string of `get_fields_for_sourcetype`, built by
f-string interpolation of the index and sourcetype values. -/
def fieldsQuery (index sourcetype : String) : String :=
  "search index=\"" ++ index ++ "\" sourcetype=\"" ++ sourcetype ++
    "\"| fields * | fields - _* | transpose | rename column as field | fields field"

/-- `if v in s then s else s + [v]`: one step of building a Python set,
modelled as a duplicate-free list (the set's iteration order is
unspecified, so only membership and duplicate-freeness are meaningful). -/
def setAdd (s : List (Option String)) (v : Option String) : List (Option String) :=
  if v ∈ s then s else s ++ [v]

/-- Lines 133-140 of `get_fields_for_sourcetype` after the search: if the
result list is non-empty, fold `fields.update(result.values())` over the
records — note line 138 collects the values of every key of each record —
then return the set as a list; an empty result list returns `[]`. -/
def get_fields_for_sourcetype (results : List Record) : List (Option String) :=
  if results.isEmpty then []
  else results.foldl (fun s r => (r.map (fun p => p.2)).foldl setAdd s) []

/-- The error kinds of the pipeline, one per Python exception class the
spec's taxonomy names: a remote search fault, a parse failure, a missing
record key (Python `KeyError`), and a result-sink write fault (an
`OSError` from the JSON file write). -/
inductive Err : Type where
  | searchFault
  | decodeFault
  | mappingFault
  | sinkFault
deriving DecidableEq

/-- Lines 154-155: `item["index"]` — dict access that raises `KeyError`
when the key is absent. -/
def dictGet (r : Record) (k : Option String) : Except Err (Option String) :=
  match Record.find r k with
  | some v => .ok v
  | none => .error .mappingFault

/-- Lines 153-155 for one item: read the two fixed keys of the discovery
record, failing with the mapping error when one is absent. -/
def pairOfItem (r : Record) : Except Err (Option String × Option String) :=
  match dictGet r (some "index") with
  | .error e => .error e
  | .ok i =>
    match dictGet r (some "sourcetype") with
    | .error e => .error e
    | .ok s => .ok (i, s)

/-- `asyncio.gather(*tasks)` over fallible tasks (line 159): the results in
task order when every task succeeds; the raised exception when one fails
(without `return_exceptions=True`, `gather` propagates it to the awaiting
caller and the remaining results are discarded). -/
def exceptMapM (f : α → Except Err β) : List α → Except Err (List β)
  | [] => .ok []
  | x :: xs =>
    match f x with
    | .error e => .error e
    | .ok b =>
      match exceptMapM f xs with
      | .error e => .error e
      | .ok bs => .ok (b :: bs)

/-- Fuel-driven slicing: `chunksF fuel B items` splits `items` into
contiguous slices of `B` (the last one may be shorter), provided
`items.length ≤ fuel`.  The fuel makes the recursion structural. -/
def chunksF (B : Nat) : Nat → List α → List (List α)
  | _, [] => []
  | 0, _ :: _ => []
  | fuel + 1, x :: xs => (x :: xs.take (B - 1)) :: chunksF B fuel (xs.drop (B - 1))

/-- The slicing of lines 204-205: `indices_and_sourcetypes[i:i+batch_size]`
for `i in range(0, len, batch_size)` — the list cut into contiguous groups
of `batch_size`, the last group possibly shorter. -/
def chunks (B : Nat) (items : List α) : List (List α) :=
  chunksF B items.length items

/-- Lines 201-207, the batching loop of `main`: process the groups in
order, each group through `process_batch` (modelled by `exceptMapM`), and
extend the aggregate list with each group's results; an exception from a
group propagates out of the loop. -/
def runBatches (worker : α → Except Err β) (B : Nat) (items : List α) :
    Except Err (List β) :=
  match exceptMapM (exceptMapM worker) (chunks B items) with
  | .error e => .error e
  | .ok rss => .ok rss.flatten

/-- The per-pair output of `process_item` (lines 181-185). -/
structure FieldReport : Type where
  index : String
  sourcetype : String
  fields : List (Option String)
deriving DecidableEq

/-- Lines 161-185, `process_item`: fetch the fields for the pair (which
may fail with a search, decode or mapping fault), then write the report
to the result sink (lines 174-179, which may fail with a sink fault), then
return the report.  A sink failure propagates as the item's exception. -/
def process_item (getFields : String → String → Except Err (List (Option String)))
    (sink : FieldReport → Except Err Unit) (index sourcetype : String) :
    Except Err FieldReport :=
  match getFields index sourcetype with
  | .error e => .error e
  | .ok fields =>
    match sink (FieldReport.mk index sourcetype fields) with
    | .error e => .error e
    | .ok _ => .ok (FieldReport.mk index sourcetype fields)

/-! Concurrency model of `process_batch` (lines 152-159) with infallible
workers.  Each task of a group is tagged with its submission index; the
executor completes the tasks in an arbitrary order, so a group's execution
is any permutation of its indexed results.  `asyncio.gather` returns the
values positionally — in submission order — whatever the completion
order, modelled by reassembling the completion list by index. -/

/-- The tasks of a group in submission order, tagged from index `i` on. -/
def indexedFrom (i : Nat) : List β → List (Nat × β)
  | [] => []
  | b :: bs => (i, b) :: indexedFrom (i + 1) bs

/-- The tasks of a group tagged with their submission indices `0,1,…`. -/
def indexed (l : List β) : List (Nat × β) :=
  indexedFrom 0 l

/-- Positional reassembly: read the completions for indices `i, i+1, …`
(`n` of them), failing if one is missing. -/
def assemble (cs : List (Nat × β)) (i : Nat) : Nat → Option (List β)
  | 0 => some []
  | n + 1 =>
    match cs.find? (fun c => c.1 == i) with
    | none => none
    | some c =>
      match assemble cs (i + 1) n with
      | none => none
      | some bs => some (c.2 :: bs)

/-- `asyncio.gather` over `n` submitted tasks whose completions are `cs`:
the `n` results in submission order. -/
def gather (n : Nat) (cs : List (Nat × β)) : Option (List β) :=
  assemble cs 0 n

/-- Lines 203-207 with an explicit schedule: groups are processed strictly
in order, each group's tasks complete as its schedule says, and the
aggregate extends with each gathered group.  `none` only when a schedule
does not cover its group. -/
def runGroupsSched (worker : α → β) :
    List (List α) → List (List (Nat × β)) → Option (List β)
  | [], _ => some []
  | _ :: _, [] => none
  | g :: gs, s :: ss =>
    match gather g.length s with
    | none => none
    | some rs =>
      match runGroupsSched worker gs ss with
      | none => none
      | some rest => some (rs ++ rest)

/-- The value the decoding loop ends up storing under key `k` for a list
of field nodes, with an explicit default for when no field carries that
name: the value of the last field node named `k` — line 95 overwrites, so
the last assignment wins. -/
def lastValueOfD (fs : List Element) (k : Option String)
    (d : Option (Option String)) : Option (Option String) :=
  match (fs.filter (fun f => f.attr "k" == k)).getLast? with
  | some f => some (fieldValue f)
  | none => d

/-- The value stored under key `k` after decoding the field nodes `fs`
into a fresh record: the value of the last field named `k`, or nothing. -/
def lastValueOf (fs : List Element) (k : Option String) : Option (Option String) :=
  lastValueOfD fs k none

/-! Concrete inputs used by the closed theorems below. -/

/-- A well-formed document whose root element is itself a result node
carrying one field: `<result><field k="host"><value><text>web01</text>
</value></field></result>`. -/
def resultRootDoc : Element :=
  .mk "result" [] none
    [.mk "field" [("k", "host")] none
      [.mk "value" [] none [.mk "text" [] (some "web01") []]]]

/-- A result node with two field children that both lack the `k`
attribute, carrying the values `v1` and `v2`. -/
def twoNameless : Element :=
  .mk "result" [] none
    [.mk "field" [] none [.mk "value" [] none [.mk "text" [] (some "v1") []]],
     .mk "field" [] none [.mk "value" [] none [.mk "text" [] (some "v2") []]]]

/-- A run whose fetch succeeded but whose response body does not parse:
the truncated document `<results><result`. -/
def decodeFailRun : SearchRun :=
  SearchRun.mk (.ok (RawDoc.mk "<results><result" none))

/-- A worker that fails on item `0` with a search fault and succeeds on
every other number. -/
def failOnZero : Nat → Except Err Nat :=
  fun n => if n == 0 then .error .searchFault else .ok n

/-- A fields fetcher that always succeeds with one field name. -/
def okGetFields : String → String → Except Err (List (Option String)) :=
  fun _ _ => .ok [some "f1"]

/-- A result sink whose write fails for sourcetype `a` and succeeds
otherwise. -/
def failingSink : FieldReport → Except Err Unit :=
  fun r => if r.sourcetype == "a" then .error .sinkFault else .ok ()

/-! Lemmas about the record (Python dict) operations. -/

theorem Record.find_insert (r : Record) (k v k' : Option String) :
    (Record.insert r k v).find k' = if k' = k then some v else r.find k' := by
  induction r with
  | nil =>
    by_cases h : k' = k
    · simp [Record.insert, Record.find, h]
    · simp [Record.insert, Record.find, h, Ne.symm h]
  | cons p ps ih =>
    by_cases hpk : p.1 = k
    · by_cases h : k' = k
      · simp [Record.insert, Record.find, hpk, h]
      · simp [Record.insert, Record.find, hpk, h, Ne.symm h]
    · by_cases hpk' : p.1 = k'
      · have h : ¬ k' = k := fun e => hpk (hpk'.trans e)
        simp [Record.insert, Record.find, hpk, hpk', h]
      · simp [Record.insert, Record.find, hpk, hpk', ih]

theorem Record.length_insert (r : Record) (k v : Option String) :
    (Record.insert r k v).length ≤ r.length + 1 := by
  induction r with
  | nil => simp [Record.insert]
  | cons p ps ih =>
    by_cases hpk : p.1 = k
    · simp [Record.insert, hpk]
    · simp only [Record.insert, hpk, beq_iff_eq, if_false, List.length_cons]
      omega

theorem Record.mem_keys_insert (r : Record) (k v a : Option String)
    (h : a ∈ (Record.insert r k v).keys) : a = k ∨ a ∈ r.keys := by
  induction r with
  | nil => simpa [Record.insert, Record.keys] using h
  | cons p ps ih =>
    by_cases hpk : p.1 = k
    · simp only [Record.insert, Record.keys, hpk, beq_self_eq_true, if_true,
        List.map_cons, List.mem_cons] at h ⊢
      tauto
    · simp only [Record.insert, Record.keys, hpk, beq_iff_eq, if_false,
        List.map_cons, List.mem_cons] at h ⊢
      rcases h with h | h
      · tauto
      · rcases ih h with h | h <;> tauto

theorem Record.keys_nodup_insert (r : Record) (k v : Option String)
    (h : r.keys.Nodup) : (Record.insert r k v).keys.Nodup := by
  induction r with
  | nil => simp [Record.insert, Record.keys]
  | cons p ps ih =>
    simp only [Record.keys, List.map_cons, List.nodup_cons] at h
    by_cases hpk : p.1 = k
    · simp only [Record.insert, hpk, beq_self_eq_true, if_true, Record.keys,
        List.map_cons, List.nodup_cons]
      exact ⟨hpk ▸ h.1, h.2⟩
    · simp only [Record.insert, hpk, beq_iff_eq, if_false, Record.keys,
        List.map_cons, List.nodup_cons]
      refine ⟨fun hmem => ?_, ih h.2⟩
      rcases Record.mem_keys_insert ps k v p.1 hmem with he | he
      · exact hpk he
      · exact h.1 he

theorem Record.countP_key_le_one (r : Record) (k : Option String)
    (h : r.keys.Nodup) : r.countP (fun p => p.1 == k) ≤ 1 := by
  induction r with
  | nil => simp
  | cons p ps ih =>
    simp only [Record.keys, List.map_cons, List.nodup_cons] at h
    by_cases hpk : p.1 = k
    · have hz : ps.countP (fun p => p.1 == k) = 0 := by
        rw [List.countP_eq_zero]
        intro q hq
        simp only [beq_iff_eq]
        intro hqk
        exact h.1 (hqk.trans hpk.symm ▸ List.mem_map_of_mem (fun p => p.1) hq)
      simp [List.countP_cons, hpk, hz]
    · simpa [List.countP_cons, hpk] using ih h.2

theorem Record.find_some_countP (r : Record) (k v : Option String)
    (h : Record.find r k = some v) : 0 < r.countP (fun p => p.1 == k) := by
  induction r with
  | nil => simp [Record.find] at h
  | cons p ps ih =>
    by_cases hpk : p.1 = k
    · simp [List.countP_cons, hpk]
    · rw [Record.find, if_neg (by simpa using hpk)] at h
      simpa [List.countP_cons, hpk] using ih h

/-! Lemmas about the decoding fold of lines 90-95. -/

theorem getLast?_cons_eq (a : α) (l : List α) :
    (a :: l).getLast? = some ((l.getLast?).getD a) := by
  induction l generalizing a with
  | nil => rfl
  | cons b l ih =>
    rw [List.getLast?_cons_cons, ih b]
    simp

/-- What the decoding fold stores under each key: the value of the last
field node carrying that name, with the incoming record as fallback. -/
theorem find_decode_foldl (fs : List Element) (r : Record) (k : Option String) :
    Record.find
      (fs.foldl (fun r f => r.insert (f.attr "k") (fieldValue f)) r) k =
    lastValueOfD fs k (Record.find r k) := by
  induction fs generalizing r with
  | nil => simp [lastValueOfD]
  | cons f fs ih =>
    rw [List.foldl_cons, ih, Record.find_insert]
    by_cases hk : f.attr "k" = k
    · simp only [lastValueOfD, List.filter_cons, hk, beq_self_eq_true, if_true]
      cases hlast : ((fs.filter (fun f => f.attr "k" == k)).getLast?) with
      | none =>
        rw [getLast?_cons_eq, hlast]
        simp [hk]
      | some g =>
        rw [getLast?_cons_eq, hlast]
        simp
    · have hk' : ¬ k = f.attr "k" := fun e => hk e.symm
      simp only [lastValueOfD, List.filter_cons, hk, beq_iff_eq, if_false, hk']

theorem length_decode_foldl (fs : List Element) (r : Record) :
    (fs.foldl (fun r f => r.insert (f.attr "k") (fieldValue f)) r).length ≤
      r.length + fs.length := by
  induction fs generalizing r with
  | nil => simp
  | cons f fs ih =>
    rw [List.foldl_cons]
    calc (fs.foldl (fun r f => r.insert (f.attr "k") (fieldValue f))
            (r.insert (f.attr "k") (fieldValue f))).length
        ≤ (r.insert (f.attr "k") (fieldValue f)).length + fs.length := ih _
      _ ≤ r.length + 1 + fs.length :=
          Nat.add_le_add_right (Record.length_insert r _ _) _
      _ = r.length + (f :: fs).length := by simp; omega

theorem keys_nodup_decode_foldl (fs : List Element) (r : Record)
    (h : r.keys.Nodup) :
    (fs.foldl (fun r f => r.insert (f.attr "k") (fieldValue f)) r).keys.Nodup := by
  induction fs generalizing r with
  | nil => simpa
  | cons f fs ih =>
    rw [List.foldl_cons]
    exact ih _ (Record.keys_nodup_insert r _ _ h)

/-- The record decoded for one result node stores, under every key, the
value of the last field child carrying that name. -/
theorem find_decodeResult (res : Element) (k : Option String) :
    Record.find (decodeResult res) k = lastValueOf (fieldChildren res) k := by
  rw [decodeResult, find_decode_foldl]
  rfl

theorem length_decodeResult (res : Element) :
    (decodeResult res).length ≤ (fieldChildren res).length := by
  simpa using length_decode_foldl (fieldChildren res) []

theorem keys_nodup_decodeResult (res : Element) :
    (decodeResult res).keys.Nodup := by
  exact keys_nodup_decode_foldl (fieldChildren res) [] (by simp [Record.keys])

/-! The claims. -/

/-- C3 (amended): for every well-formed document, `decode` returns exactly
one record per result node strictly below the root element (ElementTree's
`.//result` search never matches the root itself), in document order; each
record has at most as many keys as its result node has field children;
duplicate field names collapse with the last-seen value winning; and a
result node with zero field children yields an empty record, not an
error. -/
theorem decode_wellformed_shape (root : Element) :
    (decodeTree root).length = (resultNodes root).length ∧
    (∀ i, (decodeTree root).get? i = ((resultNodes root).get? i).map decodeResult) ∧
    (∀ res, (decodeResult res).length ≤ (fieldChildren res).length) ∧
    (∀ res, fieldChildren res = [] → decodeResult res = []) ∧
    (∀ res k, Record.find (decodeResult res) k = lastValueOf (fieldChildren res) k) := by
  refine ⟨by simp [decodeTree], fun i => by simp [decodeTree],
    length_decodeResult, fun res h => by simp [decodeResult, h], find_decodeResult⟩

/-- C3 counterexample: a well-formed document whose root element is itself
a result node with one field child.  The document contains one result node
(with one field child), so the claim predicts one record, but `decode`
returns no record at all: `root.findall(".//result")` matches only proper
descendants, never the root. -/
theorem decode_misses_result_root :
    ((allNodes resultRootDoc).filter (fun e => e.tag == "result")).length = 1 ∧
    (((allNodes resultRootDoc).filter (fun e => e.tag == "result")).all
      (fun r => (fieldChildren r).length == 1)) = true ∧
    decodeTree resultRootDoc = [] := by
  refine ⟨?_, ?_, ?_⟩ <;>
    simp [allNodes, resultRootDoc, Element.descendants, descList, decodeTree,
      resultNodes, Element.children, Element.tag, fieldChildren]

/-- C10: a field node without the `k` attribute does not make decoding
fail and is not skipped: the record stores its value under the absent
(`none`) name, and any number of such nameless fields within one result
node collapse to exactly one entry whose value is the last one seen. -/
theorem nameless_field_collapses (res : Element)
    (hx : 0 < ((fieldChildren res).filter
      (fun f => f.attr "k" == (none : Option String))).length) :
    (∃ v, Record.find (decodeResult res) none = some v ∧
        lastValueOf (fieldChildren res) none = some v) ∧
    (decodeResult res).countP (fun p => p.1 == (none : Option String)) = 1 := by
  obtain ⟨g, hg⟩ : ∃ g, ((fieldChildren res).filter
      (fun f => f.attr "k" == (none : Option String))).getLast? = some g := by
    cases hl : (fieldChildren res).filter
        (fun f => f.attr "k" == (none : Option String)) with
    | nil => rw [hl] at hx; simp at hx
    | cons a t => exact ⟨(t.getLast?).getD a, getLast?_cons_eq a t⟩
  have hfind : Record.find (decodeResult res) none = some (fieldValue g) := by
    rw [find_decodeResult, lastValueOf, lastValueOfD, hg]
  refine ⟨⟨fieldValue g, hfind, by rw [lastValueOf, lastValueOfD, hg]⟩, ?_⟩
  have h1 := Record.countP_key_le_one (decodeResult res) none (keys_nodup_decodeResult res)
  have h2 := Record.find_some_countP (decodeResult res) none (fieldValue g) hfind
  omega

/-- C10 witness: a result node with two nameless fields decodes to a
record with exactly one entry under the absent name, holding the second
field's value. -/
theorem nameless_field_collapses_witness :
    (∃ v, Record.find (decodeResult twoNameless) none = some v ∧
        lastValueOf (fieldChildren twoNameless) none = some v) ∧
    (decodeResult twoNameless).countP (fun p => p.1 == (none : Option String)) = 1 :=
  nameless_field_collapses twoNameless (by decide)

/-- C6: `decode` has exactly two outcomes.  On a document that parses, it
returns the full decoded sequence — one record per result node below the
root, nothing dropped.  On a document that does not parse, it fails with a
decode error whose diagnostic payload is a prefix of the raw content, and
returns no partial result list. -/
theorem decode_total_or_error (d : RawDoc) :
    (∀ root, d.parsed = some root →
        decode d = .ok (decodeTree root) ∧
        (decodeTree root).length = (resultNodes root).length) ∧
    (d.parsed = none →
        ∃ e, decode d = .error e ∧ ∃ rest, d.raw.toList = e.diag.toList ++ rest) := by
  obtain ⟨raw, parsed⟩ := d
  cases parsed with
  | none =>
    exact ⟨fun root h => by simp at h,
      fun _ => ⟨DecodeError.mk raw, rfl, [], by simp⟩⟩
  | some root =>
    refine ⟨fun r h => ?_, fun h => by simp at h⟩
    obtain rfl : root = r := by simpa using h
    exact ⟨rfl, by simp [decodeTree]⟩

/-- C1 counterexample: a run whose job was submitted and polled to
completion, whose fetch succeeded, and whose body fails to decode.  This
is a decode-failure exit path, yet `job.cancel()` is called zero times,
not once: line 101 is only reached after decoding succeeded, and both
`except` handlers re-raise without cancelling. -/
theorem release_skipped_on_decode_failure :
    search decodeFailRun = (SearchOutcome.decodeError "<results><result", 0) := by
  rfl

/-- C1 (amended): per successfully submitted job, the remote release call
is made exactly once on the success path — fetch and decode both
succeeded — and zero times on every failure path, including the paths
where fetching raw results or decoding them fails. -/
theorem release_only_on_success (run : SearchRun) :
    ((search run).2 = 1 ↔ ∃ rs, (search run).1 = SearchOutcome.ok rs) ∧
    ((search run).2 = 0 ↔
      (∃ msg, (search run).1 = SearchOutcome.searchError msg) ∨
      (∃ diag, (search run).1 = SearchOutcome.decodeError diag)) := by
  obtain ⟨fetched⟩ := run
  cases fetched with
  | error msg => simp [search]
  | ok d =>
    cases h : decode d with
    | error e => simp [search, h]
    | ok rs => simp [search, h]

/-- C8: mapping one discovery record to an (index, sourcetype) pair reads
the two fixed keys; when either key is absent the mapping fails with the
mapping-error kind (Python's `KeyError`), never with another kind and
never by producing a pair; when both keys are present it produces exactly
the pair of stored values. -/
theorem pairOfItem_mapping_error (r : Record) :
    ((Record.find r (some "index") = none ∨
        Record.find r (some "sourcetype") = none) →
      pairOfItem r = .error .mappingFault) ∧
    (∀ i s, Record.find r (some "index") = some i →
        Record.find r (some "sourcetype") = some s →
      pairOfItem r = .ok (i, s)) := by
  constructor
  · rintro (h | h)
    · simp [pairOfItem, dictGet, h]
    · cases hi : Record.find r (some "index") with
      | none => simp [pairOfItem, dictGet, hi]
      | some i => simp [pairOfItem, dictGet, hi, h]
  · intro i s hi hs
    simp [pairOfItem, dictGet, hi, hs]

/-! Lemmas about the set collection of lines 136-139. -/

theorem mem_setAdd (s : List (Option String)) (v a : Option String) :
    a ∈ setAdd s v ↔ a ∈ s ∨ a = v := by
  by_cases h : v ∈ s
  · simp only [setAdd, h, if_true]
    exact ⟨Or.inl, fun hh => hh.elim id (fun e => e ▸ h)⟩
  · simp [setAdd, h]

theorem nodup_setAdd (s : List (Option String)) (v : Option String)
    (h : s.Nodup) : (setAdd s v).Nodup := by
  by_cases hv : v ∈ s
  · simpa [setAdd, hv] using h
  · simp only [setAdd, hv, if_false]
    simpa [List.nodup_append] using ⟨h, fun e => hv e⟩

theorem mem_foldl_setAdd (vs : List (Option String)) :
    ∀ (s : List (Option String)) (a : Option String),
      a ∈ vs.foldl setAdd s ↔ a ∈ s ∨ a ∈ vs := by
  induction vs with
  | nil => intro s a; simp
  | cons v vs ih =>
    intro s a
    rw [List.foldl_cons, ih, mem_setAdd]
    simp only [List.mem_cons]
    tauto

theorem nodup_foldl_setAdd (vs : List (Option String)) :
    ∀ (s : List (Option String)), s.Nodup → (vs.foldl setAdd s).Nodup := by
  induction vs with
  | nil => intro s h; simpa
  | cons v vs ih => intro s h; exact ih _ (nodup_setAdd s v h)

theorem mem_fields_foldl (results : List Record) :
    ∀ (s : List (Option String)) (a : Option String),
      a ∈ results.foldl (fun s r => (r.map (fun p => p.2)).foldl setAdd s) s ↔
        a ∈ s ∨ ∃ r ∈ results, ∃ p ∈ r, p.2 = a := by
  induction results with
  | nil => intro s a; simp
  | cons r rs ih =>
    intro s a
    rw [List.foldl_cons, ih, mem_foldl_setAdd]
    simp only [List.mem_cons, List.mem_map]
    constructor
    · rintro ((h | ⟨p, hp, hpa⟩) | ⟨q, hq, hmem⟩)
      · exact Or.inl h
      · exact Or.inr ⟨r, Or.inl rfl, p, hp, hpa⟩
      · exact Or.inr ⟨q, Or.inr hq, hmem⟩
    · rintro (h | ⟨q, (rfl | hq), p, hp, hpa⟩)
      · exact Or.inl (Or.inl h)
      · exact Or.inl (Or.inr ⟨p, hp, hpa⟩)
      · exact Or.inr ⟨q, hq, p, hp, hpa⟩

theorem nodup_fields_foldl (results : List Record) :
    ∀ (s : List (Option String)), s.Nodup →
      (results.foldl (fun s r => (r.map (fun p => p.2)).foldl setAdd s) s).Nodup := by
  induction results with
  | nil => intro s h; simpa
  | cons r rs ih => intro s h; exact ih _ (nodup_foldl_setAdd _ s h)

/-- C5 (amended): the mapping of a decoded fields-query result to a field
collection builds a set, so the returned collection never contains a
duplicate; but it collects the values of every key of each row — not only
the fixed field-name key — and null values are kept, not dropped, so a
null entry can appear in the returned collection. -/
theorem fields_set_nodup_mem (results : List Record) :
    (get_fields_for_sourcetype results).Nodup ∧
    (∀ v, v ∈ get_fields_for_sourcetype results ↔
        ∃ r ∈ results, ∃ p ∈ r, p.2 = v) := by
  by_cases h : results.isEmpty
  · obtain rfl : results = [] := by simpa [List.isEmpty_iff] using h
    simp [get_fields_for_sourcetype]
  · rw [get_fields_for_sourcetype, if_neg h]
    exact ⟨nodup_fields_foldl results [] (by simp),
      fun v => by rw [mem_fields_foldl]; simp⟩

/-- C5 counterexample: a row whose `field` key holds a null value puts the
null into the returned collection — the claim says null values are
dropped and the collection never contains a null entry.  A second row
shows a value stored under a key other than the fixed field-name key is
collected too: line 138 reads `result.values()`, all values of the row. -/
theorem fields_set_keeps_null :
    (none : Option String) ∈ get_fields_for_sourcetype [[(some "field", none)]] ∧
    some "x" ∈ get_fields_for_sourcetype
      [[(some "other", some "x"), (some "field", none)]] := by
  decide

/-- C7 (amended): `get_fields_for_sourcetype` interpolates the index and
sourcetype values into the query string verbatim, with no quoting or
escaping: each value passes through as an unmodified substring of the
query, and because of that, distinct input pairs containing the query
language's quote metacharacter can produce the very same query string. -/
theorem fieldsQuery_verbatim_interpolation :
    (∀ index sourcetype : String,
        ∃ pre post, fieldsQuery index sourcetype = pre ++ (index ++ post)) ∧
    (∀ index sourcetype : String,
        ∃ pre post, fieldsQuery index sourcetype = pre ++ (sourcetype ++ post)) ∧
    (∃ a b : String × String, a ≠ b ∧ fieldsQuery a.1 a.2 = fieldsQuery b.1 b.2) := by
  refine ⟨fun i s => ⟨"search index=\"",
      "\" sourcetype=\"" ++ s ++
        "\"| fields * | fields - _* | transpose | rename column as field | fields field",
      by simp [fieldsQuery, String.append_assoc]⟩,
    fun i s => ⟨"search index=\"" ++ i ++ "\" sourcetype=\"",
      "\"| fields * | fields - _* | transpose | rename column as field | fields field",
      by simp [fieldsQuery, String.append_assoc]⟩,
    ⟨("A\" sourcetype=\"B", "C"), ("A", "B\" sourcetype=\"C"), by decide, by decide⟩⟩

/-- C7 counterexample: two distinct (index, sourcetype) pairs — one of
them smuggling `" sourcetype="` inside the index value — produce the very
same query string, which is impossible under any defensive quoting or
escaping of the interpolated values. -/
theorem fieldsQuery_not_injective :
    ("A\" sourcetype=\"B", "C") ≠ (("A", "B\" sourcetype=\"C") : String × String) ∧
    fieldsQuery "A\" sourcetype=\"B" "C" = fieldsQuery "A" "B\" sourcetype=\"C" := by
  exact ⟨by decide, by decide⟩

/-! Lemmas about the batching loop of lines 201-207. -/

theorem chunksF_congr (B : Nat) :
    ∀ (f1 f2 : Nat) (l : List α), l.length ≤ f1 → l.length ≤ f2 →
      chunksF B f1 l = chunksF B f2 l := by
  intro f1
  induction f1 with
  | zero =>
    intro f2 l h1 h2
    cases l with
    | nil => cases f2 <;> rfl
    | cons x xs => simp at h1
  | succ f ih =>
    intro f2 l h1 h2
    cases l with
    | nil => cases f2 <;> rfl
    | cons x xs =>
      cases f2 with
      | zero => simp at h2
      | succ f2 =>
        show (x :: xs.take (B - 1)) :: chunksF B f (xs.drop (B - 1)) =
          (x :: xs.take (B - 1)) :: chunksF B f2 (xs.drop (B - 1))
        have hxs1 : xs.length ≤ f := by simp at h1; omega
        have hxs2 : xs.length ≤ f2 := by simp at h2; omega
        have hlen := List.length_drop (B - 1) xs
        exact congrArg _ (ih f2 (xs.drop (B - 1)) (by omega) (by omega))

theorem chunks_cons (B : Nat) (x : α) (xs : List α) :
    chunks B (x :: xs) = (x :: xs.take (B - 1)) :: chunks B (xs.drop (B - 1)) := by
  show chunksF B (xs.length + 1) (x :: xs) = _
  show (x :: xs.take (B - 1)) :: chunksF B xs.length (xs.drop (B - 1)) = _
  rw [chunks]
  have hlen := List.length_drop (B - 1) xs
  exact congrArg _ (chunksF_congr B xs.length (xs.drop (B - 1)).length
    (xs.drop (B - 1)) (by omega) le_rfl)

theorem chunks_flatten_aux (B : Nat) :
    ∀ (n : Nat) (l : List α), l.length ≤ n → (chunks B l).flatten = l := by
  intro n
  induction n with
  | zero =>
    intro l h
    cases l with
    | nil => rfl
    | cons x xs => simp at h
  | succ n ih =>
    intro l h
    cases l with
    | nil => rfl
    | cons x xs =>
      rw [chunks_cons, List.flatten_cons,
        ih (xs.drop (B - 1)) (by have := List.length_drop (B - 1) xs; simp at h; omega)]
      rw [List.cons_append, List.take_append_drop]

/-- The slicing is a partition: the groups concatenate back to the input,
so groups are contiguous and processed in input order. -/
theorem chunks_flatten (B : Nat) (l : List α) : (chunks B l).flatten = l :=
  chunks_flatten_aux B l.length l le_rfl

theorem chunks_group_length_aux (B : Nat) (hB : 0 < B) :
    ∀ (n : Nat) (l : List α), l.length ≤ n →
      ∀ g ∈ chunks B l, g.length ≤ B := by
  intro n
  induction n with
  | zero =>
    intro l h g hg
    cases l with
    | nil => simp [chunks, chunksF] at hg
    | cons x xs => simp at h
  | succ n ih =>
    intro l h g hg
    cases l with
    | nil => simp [chunks, chunksF] at hg
    | cons x xs =>
      rw [chunks_cons] at hg
      rcases List.mem_cons.mp hg with rfl | hg2
      · have := List.length_take (B - 1) xs
        simp only [List.length_cons, this]
        omega
      · exact ih (xs.drop (B - 1))
          (by have := List.length_drop (B - 1) xs; simp at h; omega) g hg2

/-- Every group of the slicing has at most `batch_size` items. -/
theorem chunks_group_length (B : Nat) (hB : 0 < B) (l : List α) :
    ∀ g ∈ chunks B l, g.length ≤ B :=
  chunks_group_length_aux B hB l.length l le_rfl

/-- `asyncio.gather` over fallible tasks: if one task of the list raises,
the whole gathered batch raises. -/
theorem exceptMapM_error_of_mem (f : α → Except Err β) (l : List α) (x : α)
    (e0 : Err) (hx : x ∈ l) (hf : f x = .error e0) :
    ∃ e, exceptMapM f l = .error e := by
  induction l with
  | nil => cases hx
  | cons a l ih =>
    cases hxa : f a with
    | error e => exact ⟨e, by simp [exceptMapM, hxa]⟩
    | ok b =>
      rcases List.mem_cons.mp hx with rfl | hmem
      · rw [hxa] at hf; cases hf
      · obtain ⟨e, he⟩ := ih hmem
        exact ⟨e, by simp [exceptMapM, hxa, he]⟩

/-- If any item's worker raises, the whole batching loop of `main` raises
and no aggregate list is produced. -/
theorem runBatches_error_of_worker_error (worker : α → Except Err β) (B : Nat)
    (items : List α) (x : α) (e0 : Err) (hx : x ∈ items)
    (hf : worker x = .error e0) :
    ∃ e, runBatches worker B items = .error e := by
  obtain ⟨g, hg, hxg⟩ : ∃ g ∈ chunks B items, x ∈ g := by
    have hfl := chunks_flatten B items
    rw [← hfl] at hx
    exact List.mem_flatten.mp hx
  obtain ⟨e1, he1⟩ := exceptMapM_error_of_mem worker g x e0 hxg hf
  obtain ⟨e, he⟩ :=
    exceptMapM_error_of_mem (exceptMapM worker) (chunks B items) g e1 hg he1
  exact ⟨e, by simp [runBatches, he]⟩

/-- C2 (amended): when one item's worker raises mid-group, the failure is
not isolated: `asyncio.gather` (used without `return_exceptions=True`)
propagates the exception out of `process_batch`, `main`'s loop aborts, the
sibling results of the group are discarded, subsequent groups are not
processed, and no aggregate report is produced — the run's only outcome is
the raised error. -/
theorem worker_failure_aborts_run (worker : α → Except Err β) (B : Nat)
    (items : List α) (x : α) (e0 : Err) (_hB : 0 < B) (hx : x ∈ items)
    (hf : worker x = .error e0) :
    ∃ e, runBatches worker B items = .error e :=
  runBatches_error_of_worker_error worker B items x e0 hx hf

/-- C2 witness: with batch size 2 and a worker failing on item `0`, the
run `[1, 0, 2, 3]` raises. -/
theorem worker_failure_aborts_run_witness :
    ∃ e, runBatches failOnZero 2 [1, 0, 2, 3] = .error e :=
  worker_failure_aborts_run failOnZero 2 [1, 0, 2, 3] 0 .searchFault
    (by decide) (by decide) rfl

/-- C2 counterexample: items `[1, 0, 2, 3]` with batch size 2; the worker
fails on item `0` — mid group one — and succeeds on its sibling `1` and on
the entire subsequent group `[2, 3]`.  The claim predicts an aggregate
report with correct entries for `1`, `2` and `3`; the code instead
surfaces the bare error, produces no aggregate at all, and never runs the
second group. -/
theorem worker_failure_aborts_run_example :
    runBatches failOnZero 2 [1, 0, 2, 3] = .error .searchFault ∧
    failOnZero 1 = .ok 1 ∧ failOnZero 2 = .ok 2 ∧ failOnZero 3 = .ok 3 := by
  exact ⟨rfl, rfl, rfl, rfl⟩

/-- C9 (amended): a failure of the result-sink write inside
`process_item` is not collected: it propagates as the item's exception,
aborts the batch being gathered and the whole batching loop, and the run
produces no aggregate report — the sink failure surfaces only as the
pipeline's raised error. -/
theorem sink_failure_aborts_run
    (getFields : String → String → Except Err (List (Option String)))
    (sink : FieldReport → Except Err Unit) (B : Nat)
    (items : List (String × String)) (pr : String × String)
    (fields : List (Option String)) (es : Err) (_hB : 0 < B) (hmem : pr ∈ items)
    (hget : getFields pr.1 pr.2 = .ok fields)
    (hsink : sink (FieldReport.mk pr.1 pr.2 fields) = .error es) :
    ∃ e, runBatches (fun p => process_item getFields sink p.1 p.2) B items
      = .error e := by
  apply runBatches_error_of_worker_error _ B items pr es hmem
  simp [process_item, hget, hsink]

/-- C9 witness: one pair whose sink write fails makes the whole run
raise. -/
theorem sink_failure_aborts_run_witness :
    ∃ e, runBatches (fun p => process_item okGetFields failingSink p.1 p.2) 5
      [("main", "a"), ("main", "b")] = .error e :=
  sink_failure_aborts_run okGetFields failingSink 5 [("main", "a"), ("main", "b")]
    ("main", "a") [some "f1"] .sinkFault (by decide)
    (by decide) rfl rfl

/-- C9 counterexample: two pairs, batch size 5; the sink write fails for
the first pair's report and would succeed for the second.  The claim says
the pipeline continues, still produces the aggregate report, and collects
the sink failure alongside it; the code instead aborts the run with the
bare sink error, and the second pair's report is never part of any
aggregate. -/
theorem sink_failure_aborts_run_example :
    runBatches (fun p => process_item okGetFields failingSink p.1 p.2) 5
      [("main", "a"), ("main", "b")] = .error .sinkFault ∧
    process_item okGetFields failingSink "main" "b" =
      .ok (FieldReport.mk "main" "b" [some "f1"]) := by
  exact ⟨rfl, rfl⟩

/-! Lemmas about the scheduled batch model of lines 152-159. -/

theorem mem_indexedFrom (l : List β) :
    ∀ (i : Nat) (x : Nat × β), x ∈ indexedFrom i l ↔
      ∃ k, l.get? k = some x.2 ∧ x.1 = i + k := by
  induction l with
  | nil => intro i x; simp [indexedFrom]
  | cons b bs ih =>
    intro i x
    simp only [indexedFrom, List.mem_cons, ih (i + 1)]
    constructor
    · rintro (rfl | ⟨k, hk, hx⟩)
      · exact ⟨0, by simp⟩
      · exact ⟨k + 1, by simpa using hk, by omega⟩
    · rintro ⟨k, hk, hx⟩
      cases k with
      | zero =>
        left
        obtain ⟨x1, x2⟩ := x
        simp only [List.get?] at hk
        simp only at hx
        cases hk
        simp [hx]
      | succ k =>
        right
        exact ⟨k, by simpa using hk, by omega⟩

theorem find_first_of_unique (cs : List (Nat × β)) (y : Nat × β) (hmem : y ∈ cs)
    (huniq : ∀ x ∈ cs, x.1 = y.1 → x = y) :
    cs.find? (fun c => c.1 == y.1) = some y := by
  induction cs with
  | nil => cases hmem
  | cons c cs ih =>
    by_cases hc : c.1 = y.1
    · have hcy : c = y := huniq c (List.mem_cons_self c cs) hc
      subst hcy
      exact List.find?_cons_of_pos _ (by simp)
    · rw [List.find?_cons_of_neg _ (by simpa using hc)]
      rcases List.mem_cons.mp hmem with rfl | hmem2
      · exact absurd rfl hc
      · exact ih hmem2 (fun x hx hx1 => huniq x (List.mem_cons_of_mem c hx) hx1)

theorem find_index_of_perm (l : List β) (cs : List (Nat × β))
    (h : cs.Perm (indexed l)) (i : Nat) (hi : i < l.length) :
    cs.find? (fun c => c.1 == i) = some (i, l.get ⟨i, hi⟩) := by
  have hy : ((i, l.get ⟨i, hi⟩) : Nat × β) ∈ cs := by
    rw [h.mem_iff, indexed, mem_indexedFrom]
    exact ⟨i, by simp [List.get?_eq_get hi], by omega⟩
  exact find_first_of_unique cs (i, l.get ⟨i, hi⟩) hy (by
    intro x hx hx1
    rw [h.mem_iff, indexed, mem_indexedFrom] at hx
    obtain ⟨k, hk, hxk⟩ := hx
    simp only at hx1
    have hki : k = i := by omega
    subst hki
    rw [List.get?_eq_get hi] at hk
    obtain ⟨x1, x2⟩ := x
    simp only at hx1 hxk hk
    cases hk
    simp [hx1])

theorem assemble_of_perm (l : List β) (cs : List (Nat × β))
    (h : cs.Perm (indexed l)) :
    ∀ (n i : Nat), i + n = l.length → assemble cs i n = some (l.drop i) := by
  intro n
  induction n with
  | zero =>
    intro i hi
    rw [List.drop_eq_nil_of_le (by omega)]
    rfl
  | succ n ih =>
    intro i hi
    have hlt : i < l.length := by omega
    show (match cs.find? (fun c => c.1 == i) with
      | none => none
      | some c =>
        match assemble cs (i + 1) n with
        | none => none
        | some bs => some (c.2 :: bs)) = some (l.drop i)
    rw [find_index_of_perm l cs h i hlt, ih (i + 1) (by omega)]
    rw [List.drop_eq_get_cons hlt]

/-- `asyncio.gather` restores submission order: whatever the completion
order of a group's tasks — any permutation of the indexed results — the
gathered list is the results in submission order. -/
theorem gather_of_perm (l : List β) (cs : List (Nat × β))
    (h : cs.Perm (indexed l)) : gather l.length cs = some l := by
  have := assemble_of_perm l cs h l.length 0 (by omega)
  simpa [gather] using this

theorem runGroupsSched_eq (worker : α → β) :
    ∀ (gs : List (List α)) (ss : List (List (Nat × β))),
      gs.length = ss.length →
      (∀ p ∈ gs.zip ss, p.2.Perm (indexed (p.1.map worker))) →
      runGroupsSched worker gs ss = some (gs.flatten.map worker) := by
  intro gs
  induction gs with
  | nil =>
    intro ss h1 h2
    cases ss with
    | nil => rfl
    | cons s ss => simp at h1
  | cons g gs ih =>
    intro ss h1 h2
    cases ss with
    | nil => simp at h1
    | cons s ss =>
      have hperm : s.Perm (indexed (g.map worker)) :=
        h2 (g, s) (by simp [List.zip_cons_cons])
      have hg : gather g.length s = some (g.map worker) := by
        have hgp := gather_of_perm (g.map worker) s hperm
        rwa [List.length_map] at hgp
      show (match gather g.length s with
        | none => none
        | some rs =>
          match runGroupsSched worker gs ss with
          | none => none
          | some rest => some (rs ++ rest)) = _
      rw [hg, ih ss (by simpa using h1)
        (fun p hp => h2 p (by simp [List.zip_cons_cons, hp]))]
      simp

/-- C4: the batch scheduler partitions the input into contiguous groups of
`batch_size` (last group possibly shorter), processes the groups strictly
in input order, and — for every completion schedule, i.e. every
permutation of each group's indexed task results, which covers every
concurrency level — produces an aggregate of exactly the input's length
whose i-th entry is the worker's result for the i-th input item:
concurrency changes neither output content nor order. -/
theorem runBatches_order_and_content (worker : α → β) (B : Nat)
    (items : List α) (scheds : List (List (Nat × β))) (hB : 0 < B)
    (hlen : (chunks B items).length = scheds.length)
    (hperm : ∀ p ∈ (chunks B items).zip scheds,
      p.2.Perm (indexed (p.1.map worker))) :
    runGroupsSched worker (chunks B items) scheds = some (items.map worker) ∧
    (chunks B items).flatten = items ∧
    (∀ g ∈ chunks B items, g.length ≤ B) ∧
    (items.map worker).length = items.length ∧
    (∀ i, (items.map worker).get? i = (items.get? i).map worker) := by
  refine ⟨?_, chunks_flatten B items, chunks_group_length B hB items,
    List.length_map items worker, fun i => List.get?_map worker items i⟩
  rw [runGroupsSched_eq worker (chunks B items) scheds hlen hperm,
    chunks_flatten B items]

/-- C4 witness: seven items, batch size 5 — groups `[10,…,14]` and
`[15, 16]` — with both groups completing out of order; the aggregate is
still the workers' results in input order. -/
theorem runBatches_order_and_content_witness :
    runGroupsSched Nat.succ (chunks 5 [10, 11, 12, 13, 14, 15, 16])
      [[(2, 13), (0, 11), (4, 15), (1, 12), (3, 14)], [(1, 17), (0, 16)]] =
      some [11, 12, 13, 14, 15, 16, 17] ∧
    (chunks 5 [10, 11, 12, 13, 14, 15, 16]).flatten = [10, 11, 12, 13, 14, 15, 16] ∧
    (∀ g ∈ chunks 5 [10, 11, 12, 13, 14, 15, 16], g.length ≤ 5) ∧
    ([10, 11, 12, 13, 14, 15, 16].map Nat.succ).length =
      ([10, 11, 12, 13, 14, 15, 16] : List Nat).length ∧
    (∀ i, (([10, 11, 12, 13, 14, 15, 16] : List Nat).map Nat.succ).get? i =
      (([10, 11, 12, 13, 14, 15, 16] : List Nat).get? i).map Nat.succ) := by
  have h := runBatches_order_and_content Nat.succ 5 [10, 11, 12, 13, 14, 15, 16]
    [[(2, 13), (0, 11), (4, 15), (1, 12), (3, 14)], [(1, 17), (0, 16)]]
    (by decide) (by decide) (by decide)
  simpa using h

end Splunk
